import Mathlib

/-!
Shallow embedding of `src/js-maps.ts` (classes `UnsortedMap` and `SortedMap`).

JS arrays become Lean `List`s, `undefined` results become `Option.none`,
and JS `Array.prototype.indexOf` (which returns `-1` on a miss) becomes an
`Option Nat`-valued first-index function.  Methods that mutate `this` and
return `this` become functions from the container to the container.
-/

namespace JsMaps

/-- First index of `k` in a list, modelling `Array.prototype.indexOf`
(`-1` on a miss is modelled as `none`).  JS `===` on keys is modelled by
decidable equality. -/
def idxOf? {K : Type} [DecidableEq K] (k : K) : List K → Option Nat
  | [] => none
  | x :: xs => if x = k then some 0 else (idxOf? k xs).map (· + 1)

/-- The `UnsortedMap` class (js-maps.ts lines 8–126): two parallel storage
arrays, `keys` and `values`. -/
structure UnsortedMap (K V : Type) where
  keys : List K
  values : List V

namespace UnsortedMap

variable {K V : Type}

/-- The `UnsortedMap` constructor (lines 23–26): stores the given arrays
(defaults are `[]`). -/
def ofArrays (ks : List K) (vs : List V) : UnsortedMap K V := ⟨ks, vs⟩

/-- `new UnsortedMap()` with both default arguments. -/
def empty : UnsortedMap K V := ⟨[], []⟩

/-- `get` (lines 35–38): `index = keys.indexOf(key); return values[index]`.
When the key is missing, `values[-1]` is `undefined`; when present at `i`,
`values[i]` may still be `undefined` if `values` is shorter — both are
`none` here. -/
def get [DecidableEq K] (m : UnsortedMap K V) (k : K) : Option V :=
  match idxOf? k m.keys with
  | some i => m.values[i]?
  | none => none

/-- `set` (lines 48–58): if the key is absent, push onto both arrays;
otherwise overwrite both arrays at the existing index.  (`List.set` out of
range is a no-op, matching the fact that JS never writes out of range here
when the arrays have equal length.) -/
def set [DecidableEq K] (m : UnsortedMap K V) (k : K) (v : V) : UnsortedMap K V :=
  match idxOf? k m.keys with
  | none => ⟨m.keys ++ [k], m.values ++ [v]⟩
  | some i => ⟨m.keys.set i k, m.values.set i v⟩

/-- `has` (lines 67–69): `keys.indexOf(key) > -1`. -/
def has [DecidableEq K] (m : UnsortedMap K V) (k : K) : Bool :=
  (idxOf? k m.keys).isSome

/-- `map` (lines 78–97) as run on an `UnsortedMap` receiver:
`keys = this.keys.concat([])`, `values = this.keys.map((key, i) =>
callback(key, this.values[i]))`, then `new this.constructor(keys, values)`
which for this class stores the two arrays.  The per-index callback values
are modelled with `zipWith`; this agrees with the JS source whenever the
two storage arrays have equal length (when `values` is shorter JS would
pass `undefined` to the callback, which the callback's type `V → V` cannot
receive). -/
def map [DecidableEq K] (m : UnsortedMap K V) (f : K → V → V) : UnsortedMap K V :=
  ofArrays (m.keys ++ []) (List.zipWith f m.keys m.values)

/-- `upsert` (lines 109–125): `value = this.get(setKey);
this.set(setKey, callback(value)); return this`. -/
def upsert [DecidableEq K] (m : UnsortedMap K V) (k : K) (f : Option V → V) :
    UnsortedMap K V :=
  m.set k (f (m.get k))

/-- Run a sequence of `set` calls left to right. -/
def setAll [DecidableEq K] (m : UnsortedMap K V) (ops : List (K × V)) : UnsortedMap K V :=
  ops.foldl (fun m p => m.set p.1 p.2) m

/-- The two storage arrays have equal length (spec §3 invariant). -/
def sameLen (m : UnsortedMap K V) : Prop := m.keys.length = m.values.length

end UnsortedMap

/-- The `SortedMap` class (js-maps.ts lines 136–192).  It extends
`UnsortedMap` and inherits its storage layout and the bodies of `get`,
`has`, `map` and `upsert`; modelled as its own structure with those
operations repeated (with `set` dispatching to the override below). -/
structure SortedMap (K V : Type) where
  keys : List K
  values : List V

/-- A JS in-place array write `arr[i] = x`: at `i = arr.length` it appends,
below the length it overwrites.  (Writes strictly beyond the length would
make a sparse array; they do not occur in the `set` loop, which starts at
index `values.length` and walks down.) -/
def jsWrite {α : Type} (l : List α) (i : Nat) (x : α) : List α :=
  if i = l.length then l ++ [x] else l.set i x

/-- The insertion loop of `SortedMap.set` (lines 180–189):
`for (let i = values.length; i > -1; i--) { if (i === 0 || values[i-1] >
setValue) { keys[i] = k; values[i] = v; break } else { keys[i] =
keys[i-1]; values[i] = values[i-1] } }`.  The recursion argument is the
loop counter `i`; reads of `keys[i-1]`/`values[i-1]` use the current
(partially shifted) arrays, exactly as in the source. -/
def setLoop {K V : Type} [LinearOrder V] (k : K) (v : V) :
    Nat → List K → List V → List K × List V
  | 0, ks, vs => (jsWrite ks 0 k, jsWrite vs 0 v)
  | i + 1, ks, vs =>
    match vs[i]? with
    | some w =>
      if w > v then (jsWrite ks (i + 1) k, jsWrite vs (i + 1) v)
      else
        match ks[i]? with
        | some kk => setLoop k v i (jsWrite ks (i + 1) kk) (jsWrite vs (i + 1) w)
        | none => setLoop k v i ks (jsWrite vs (i + 1) w)
    | none => setLoop k v i ks vs

/-- One conditional pairwise swap of the `SortedMap` constructor's sorting
pass (lines 149–156): if `values[i] < values[j]`, swap values and keys at
`i` and `j`.  (The key swap is modelled for in-range indices; out-of-range
key reads would produce JS `undefined` holes and cannot occur when the two
arrays have equal length.) -/
def jointSwapStep {K V : Type} [LinearOrder V] (p : List K × List V) (i j : Nat) :
    List K × List V :=
  match p.2[i]?, p.2[j]? with
  | some vi, some vj =>
    if vi < vj then
      match p.1[i]?, p.1[j]? with
      | some ki, some kj => ((p.1.set i kj).set j ki, (p.2.set i vj).set j vi)
      | _, _ => (p.1, (p.2.set i vj).set j vi)
    else p
  | _, _ => p

/-- The double loop of the `SortedMap` constructor (lines 147–158):
`for i in [0, values.length) for j in (i, values.length)` do the
conditional swap. -/
def sortJoint {K V : Type} [LinearOrder V] (ks : List K) (vs : List V) :
    List K × List V :=
  (List.range vs.length).foldl
    (fun p i =>
      (List.range vs.length).foldl
        (fun q j => if i < j then jointSwapStep q i j else q) p)
    (ks, vs)

namespace SortedMap

variable {K V : Type}

/-- The `SortedMap` constructor (lines 144–161): the guard `!!keys &&
!!values` is always true for array arguments, so the sorting pass always
runs on the caller's arrays; then `super()` is invoked with **no
arguments**, so the base storage is initialized with the defaults `[]`,
`[]` and the locally sorted arrays are discarded.  The constructed
container is therefore empty whatever the inputs. -/
def ofArrays [LinearOrder V] (ks : List K) (vs : List V) : SortedMap K V :=
  let _sorted := sortJoint ks vs
  ⟨[], []⟩

/-- `new SortedMap()` with both default arguments. -/
def empty : SortedMap K V := ⟨[], []⟩

/-- `get`, inherited unchanged from `UnsortedMap` (lines 35–38). -/
def get [DecidableEq K] (m : SortedMap K V) (k : K) : Option V :=
  match idxOf? k m.keys with
  | some i => m.values[i]?
  | none => none

/-- `has`, inherited unchanged from `UnsortedMap` (lines 67–69). -/
def has [DecidableEq K] (m : SortedMap K V) (k : K) : Bool :=
  (idxOf? k m.keys).isSome

/-- The first phase of `SortedMap.set` (lines 172–177): if the key already
exists, splice its entry out of both arrays. -/
def spliceOut [DecidableEq K] (m : SortedMap K V) (k : K) : List K × List V :=
  match idxOf? k m.keys with
  | some i => (m.keys.eraseIdx i, m.values.eraseIdx i)
  | none => (m.keys, m.values)

/-- `SortedMap.set` (lines 171–191): splice out the key if present, then
run the backward insertion loop starting at `i = values.length`. -/
def set [DecidableEq K] [LinearOrder V] (m : SortedMap K V) (k : K) (v : V) :
    SortedMap K V :=
  let p := m.spliceOut k
  let q := setLoop k v p.2.length p.1 p.2
  ⟨q.1, q.2⟩

/-- `map` (lines 78–97) as run on a `SortedMap` receiver: the inherited
body copies the keys and builds the transformed values, then calls
`new this.constructor(keys, values)` — here the `SortedMap` constructor,
which discards both arrays and yields an empty container. -/
def map [DecidableEq K] [LinearOrder V] (m : SortedMap K V) (f : K → V → V) :
    SortedMap K V :=
  ofArrays (m.keys ++ []) (List.zipWith f m.keys m.values)

/-- `upsert`, inherited from `UnsortedMap` (lines 109–125); `this.set`
dispatches to the `SortedMap` override. -/
def upsert [DecidableEq K] [LinearOrder V] (m : SortedMap K V) (k : K)
    (f : Option V → V) : SortedMap K V :=
  m.set k (f (m.get k))

/-- Run a sequence of `set` calls left to right. -/
def setAll [DecidableEq K] [LinearOrder V] (m : SortedMap K V) (ops : List (K × V)) :
    SortedMap K V :=
  ops.foldl (fun m p => m.set p.1 p.2) m

/-- The two storage arrays have equal length (spec §3 invariant). -/
def sameLen (m : SortedMap K V) : Prop := m.keys.length = m.values.length

end SortedMap

/-- `insertAt l t x`: the list with `x` inserted so that it ends up at
index `t` (used to characterize the result of the `set` insertion loop). -/
def insertAt {α : Type} (l : List α) (t : Nat) (x : α) : List α :=
  l.take t ++ x :: l.drop t

/-- Where the insertion loop of `SortedMap.set` stops when started at
counter `n`: the largest `i ≤ n` such that `i = 0` or `values[i-1] > v`,
scanning downward from `n`. -/
def stopIdxAux {V : Type} [LinearOrder V] (v : V) (vs : List V) : Nat → Nat
  | 0 => 0
  | i + 1 =>
    match vs[i]? with
    | some w => if w > v then i + 1 else stopIdxAux v vs i
    | none => stopIdxAux v vs i

/-- The index at which `SortedMap.set`'s loop (started at
`i = values.length`) places the new entry. -/
def stopIdx {V : Type} [LinearOrder V] (v : V) (vs : List V) : Nat :=
  stopIdxAux v vs vs.length

/-- The value of the most recent (`last`) operation with key `k` in a
sequence of `(key, value)` pairs, if any.  Used to state the "get returns
the most recently set value" property. -/
def lastSet {K V : Type} [DecidableEq K] : List (K × V) → K → Option V
  | [], _ => none
  | (k', v) :: ops, k =>
    match lastSet ops k with
    | some w => some w
    | none => if k' = k then some v else none

/-! ## Basic lemmas about `idxOf?`, `List.set` and `insertAt` -/

section BasicLemmas

variable {K : Type} {α : Type}

theorem idxOf?_eq_none_iff [DecidableEq K] {k : K} {l : List K} :
    idxOf? k l = none ↔ k ∉ l := by
  induction l with
  | nil => simp [idxOf?]
  | cons x xs ih =>
    rw [idxOf?]
    by_cases hx : x = k
    · simp [hx]
    · simp only [if_neg hx, Option.map_eq_none', ih, List.mem_cons, not_or]
      exact ⟨fun h => ⟨fun he => hx he.symm, h⟩, fun h => h.2⟩

theorem idxOf?_lt_length [DecidableEq K] {k : K} :
    ∀ {l : List K} {i : Nat}, idxOf? k l = some i → i < l.length := by
  intro l
  induction l with
  | nil => intro i h; simp [idxOf?] at h
  | cons x xs ih =>
    intro i h
    rw [idxOf?] at h
    by_cases hx : x = k
    · rw [if_pos hx] at h; cases h; simp
    · rw [if_neg hx] at h
      rcases Option.map_eq_some'.1 h with ⟨j, hj, rfl⟩
      simpa using ih hj

theorem idxOf?_getElem? [DecidableEq K] {k : K} :
    ∀ {l : List K} {i : Nat}, idxOf? k l = some i → l[i]? = some k := by
  intro l
  induction l with
  | nil => intro i h; simp [idxOf?] at h
  | cons x xs ih =>
    intro i h
    rw [idxOf?] at h
    by_cases hx : x = k
    · rw [if_pos hx] at h; cases h; simp [hx]
    · rw [if_neg hx] at h
      rcases Option.map_eq_some'.1 h with ⟨j, hj, rfl⟩
      simpa using ih hj

theorem idxOf?_append_left [DecidableEq K] {k : K} {l l' : List K} :
    ∀ {i : Nat}, idxOf? k l = some i → idxOf? k (l ++ l') = some i := by
  induction l with
  | nil => intro i h; simp [idxOf?] at h
  | cons x xs ih =>
    intro i h
    rw [idxOf?] at h
    rw [List.cons_append, idxOf?]
    by_cases hx : x = k
    · rw [if_pos hx] at h ⊢; exact h
    · rw [if_neg hx] at h ⊢
      rcases Option.map_eq_some'.1 h with ⟨j, hj, rfl⟩
      rw [ih hj]; rfl

theorem idxOf?_append_self [DecidableEq K] {k : K} {l : List K} (h : k ∉ l) :
    idxOf? k (l ++ [k]) = some l.length := by
  induction l with
  | nil => simp [idxOf?]
  | cons x xs ih =>
    rw [List.mem_cons, not_or] at h
    rw [List.cons_append, idxOf?, if_neg (fun he => h.1 he.symm), ih h.2]
    rfl

theorem idxOf?_append_ne [DecidableEq K] {k k' : K} (hne : k' ≠ k) (l : List K) :
    idxOf? k (l ++ [k']) = idxOf? k l := by
  induction l with
  | nil => simp [idxOf?, hne]
  | cons x xs ih =>
    rw [List.cons_append, idxOf?, idxOf?, ih]

theorem set_of_getElem? : ∀ {l : List α} {i : Nat} {a : α},
    l[i]? = some a → l.set i a = l := by
  intro l
  induction l with
  | nil => intro i a h; simp at h
  | cons x xs ih =>
    intro i a h
    cases i with
    | zero => simp at h; simp [h]
    | succ i => simp at h; simp [ih h]

theorem insertAt_zero (l : List α) (x : α) : insertAt l 0 x = x :: l := rfl

theorem insertAt_cons_succ (a : α) (l : List α) (t : Nat) (x : α) :
    insertAt (a :: l) (t + 1) x = a :: insertAt l t x := rfl

theorem insertAt_nil (t : Nat) (x : α) : insertAt ([] : List α) t x = [x] := by
  simp [insertAt]

theorem length_insertAt : ∀ (l : List α) (t : Nat) (x : α),
    (insertAt l t x).length = l.length + 1 := by
  intro l
  induction l with
  | nil => intro t x; rw [insertAt_nil]; rfl
  | cons a l ih =>
    intro t x
    cases t with
    | zero => rfl
    | succ t => rw [insertAt_cons_succ]; simp [ih]

theorem eraseIdx_insertAt : ∀ (l : List α) (t : Nat) (x : α), t ≤ l.length →
    (insertAt l t x).eraseIdx t = l := by
  intro l
  induction l with
  | nil =>
    intro t x ht
    have ht0 : t = 0 := Nat.le_zero.mp ht
    subst ht0
    rfl
  | cons a l ih =>
    intro t x ht
    cases t with
    | zero => rfl
    | succ t =>
      rw [insertAt_cons_succ, List.eraseIdx_cons_succ, ih t x (Nat.le_of_succ_le_succ ht)]

theorem idxOf?_insertAt_self [DecidableEq K] {k : K} :
    ∀ (l : List K) (t : Nat), k ∉ l → t ≤ l.length →
      idxOf? k (insertAt l t k) = some t := by
  intro l
  induction l with
  | nil =>
    intro t _ ht
    have ht0 : t = 0 := Nat.le_zero.mp ht
    subst ht0
    simp [insertAt_zero, idxOf?]
  | cons a l ih =>
    intro t hmem ht
    rw [List.mem_cons, not_or] at hmem
    cases t with
    | zero => simp [insertAt_zero, idxOf?]
    | succ t =>
      rw [insertAt_cons_succ, idxOf?, if_neg (fun he => hmem.1 he.symm),
        ih t hmem.2 (Nat.le_of_succ_le_succ ht)]
      rfl

end BasicLemmas

/-! ## Characterization of the `SortedMap.set` insertion loop

Started at counter `i = values.length`, the loop shifts entries rightward
until it reaches the stop index (`stopIdx`), where it writes the new
entry; the net effect on both parallel arrays is an insertion at that
index.  The proof follows the loop downward: at counter `i` the current
arrays are `original.take (i+1) ++ original.drop i` (the positions above
`i` already hold their shifted final values, except that nothing has been
shifted yet at the very start, where the formula also degenerates to the
original array). -/

section LoopLemmas

variable {K V : Type} {α : Type}

theorem jsWritePlace (l : List α) (j : Nat) (x : α) (h : j ≤ l.length) :
    jsWrite (l.take (j + 1) ++ l.drop j) j x = insertAt l j x := by
  rcases Nat.lt_or_ge j l.length with hj | hj
  · have hlen : (l.take (j + 1) ++ l.drop j).length = l.length + 1 := by
      simp only [List.length_append, List.length_take, List.length_drop]
      omega
    rw [jsWrite, if_neg (by omega)]
    have htl : j < (l.take (j + 1)).length := by
      simp only [List.length_take]
      omega
    rw [List.set_append_left _ _ htl]
    have h1 : l.take (j + 1) = l.take j ++ [l[j]] := by
      rw [List.take_succ]
      simp [List.getElem?_eq_getElem hj]
    rw [h1]
    have h2 : (l.take j).length = j := by
      simp only [List.length_take]
      omega
    rw [List.set_append_right _ _ (le_of_eq h2)]
    simp [insertAt, h2]
  · have hj' : j = l.length := le_antisymm h hj
    subst hj'
    rw [List.take_of_length_le (by omega), List.drop_length, List.append_nil]
    rw [jsWrite, if_pos rfl]
    simp [insertAt, List.take_of_length_le (le_refl l.length), List.drop_length]

theorem jsWrite_shift (l : List α) (i : Nat) (a : α) (ha : l[i]? = some a) :
    jsWrite (l.take (i + 2) ++ l.drop (i + 1)) (i + 1) a
      = l.take (i + 1) ++ l.drop i := by
  have hi : i < l.length := by
    rcases List.getElem?_eq_some_iff.mp ha with ⟨h, _⟩
    exact h
  have hval : l[i] = a := by
    rcases List.getElem?_eq_some_iff.mp ha with ⟨h, he⟩
    exact he
  have hdrop : l.drop i = a :: l.drop (i + 1) := by
    rw [List.drop_eq_getElem_cons hi, hval]
  rcases Nat.lt_or_ge (i + 1) l.length with hj | hj
  · have hlen : (l.take (i + 2) ++ l.drop (i + 1)).length = l.length + 1 := by
      simp only [List.length_append, List.length_take, List.length_drop]
      omega
    rw [jsWrite, if_neg (by omega)]
    have htl : i + 1 < (l.take (i + 2)).length := by
      simp only [List.length_take]
      omega
    rw [List.set_append_left _ _ htl]
    have h1 : l.take (i + 2) = l.take (i + 1) ++ [l[i + 1]] := by
      rw [List.take_succ]
      simp [List.getElem?_eq_getElem hj]
    rw [h1]
    have h2 : (l.take (i + 1)).length = i + 1 := by
      simp only [List.length_take]
      omega
    rw [List.set_append_right _ _ (le_of_eq h2)]
    simp [h2, hdrop]
  · have hj' : i + 1 = l.length := le_antisymm (by omega) hj
    rw [List.take_of_length_le (by omega), List.drop_of_length_le (by omega),
      List.append_nil]
    rw [jsWrite, if_pos hj', List.take_of_length_le (by omega), hdrop,
      List.drop_of_length_le (by omega)]

theorem setLoop_take_drop [LinearOrder V] (k : K) (v : V) :
    ∀ (i : Nat) (ks : List K) (vs : List V), ks.length = vs.length →
      i ≤ vs.length →
      setLoop k v i (ks.take (i + 1) ++ ks.drop i) (vs.take (i + 1) ++ vs.drop i)
        = (insertAt ks (stopIdxAux v vs i) k, insertAt vs (stopIdxAux v vs i) v) := by
  intro i
  induction i with
  | zero =>
    intro ks vs hlen _
    rw [setLoop, stopIdxAux]
    rw [jsWritePlace ks 0 k (Nat.zero_le _), jsWritePlace vs 0 v (Nat.zero_le _)]
  | succ i ih =>
    intro ks vs hlen hi
    have hiv : i < vs.length := hi
    have hik : i < ks.length := by omega
    have hw : vs[i]? = some vs[i] := List.getElem?_eq_getElem hiv
    have hkk : ks[i]? = some ks[i] := List.getElem?_eq_getElem hik
    have hBi : (vs.take (i + 2) ++ vs.drop (i + 1))[i]? = some vs[i] := by
      rw [List.getElem?_append_left (by simp only [List.length_take]; omega),
        List.getElem?_take_of_lt (by omega)]
      exact hw
    have hAi : (ks.take (i + 2) ++ ks.drop (i + 1))[i]? = some ks[i] := by
      rw [List.getElem?_append_left (by simp only [List.length_take]; omega),
        List.getElem?_take_of_lt (by omega)]
      exact hkk
    rw [setLoop, hBi, stopIdxAux, hw]
    simp only []
    by_cases hcmp : vs[i] > v
    · rw [if_pos hcmp, if_pos hcmp]
      rw [jsWritePlace ks (i + 1) k (by omega), jsWritePlace vs (i + 1) v (by omega)]
    · rw [if_neg hcmp, if_neg hcmp, hAi]
      simp only []
      rw [jsWrite_shift ks i ks[i] hkk, jsWrite_shift vs i vs[i] hw]
      exact ih ks vs hlen (by omega)

/-- The net effect of the insertion loop started at `i = values.length`
on equal-length arrays: insertion of the new key/value at `stopIdx`. -/
theorem setLoop_run [LinearOrder V] (k : K) (v : V) (ks : List K) (vs : List V)
    (hlen : ks.length = vs.length) :
    setLoop k v vs.length ks vs
      = (insertAt ks (stopIdx v vs) k, insertAt vs (stopIdx v vs) v) := by
  have h := setLoop_take_drop k v vs.length ks vs hlen le_rfl
  have e1 : ks.take (vs.length + 1) = ks := List.take_of_length_le (by omega)
  have e2 : vs.take (vs.length + 1) = vs := List.take_of_length_le (by omega)
  have e3 : ks.drop vs.length = [] := List.drop_of_length_le (by omega)
  have e4 : vs.drop vs.length = [] := List.drop_of_length_le (by omega)
  rw [e1, e2, e3, e4, List.append_nil, List.append_nil] at h
  rw [stopIdx]
  exact h

end LoopLemmas

/-! ## Properties of the stop index and of sorted insertion -/

section StopLemmas

variable {K V : Type} {α : Type}

theorem stopIdxAux_le [LinearOrder V] (v : V) (vs : List V) :
    ∀ n : Nat, stopIdxAux v vs n ≤ n := by
  intro n
  induction n with
  | zero => exact le_rfl
  | succ n ih =>
    rw [stopIdxAux]
    cases hvn : vs[n]? with
    | none => exact le_trans ih (Nat.le_succ n)
    | some w =>
      simp only []
      by_cases hw : w > v
      · rw [if_pos hw]
      · rw [if_neg hw]
        exact le_trans ih (Nat.le_succ n)

theorem stopIdx_le [LinearOrder V] (v : V) (vs : List V) :
    stopIdx v vs ≤ vs.length :=
  stopIdxAux_le v vs vs.length

theorem stopIdxAux_stop [LinearOrder V] (v : V) (vs : List V) :
    ∀ n : Nat, 0 < stopIdxAux v vs n →
      ∃ w, vs[stopIdxAux v vs n - 1]? = some w ∧ v < w := by
  intro n
  induction n with
  | zero => intro h; exact absurd h (by rw [stopIdxAux] at h ⊢; omega)
  | succ n ih =>
    intro hpos
    rw [stopIdxAux] at hpos ⊢
    cases hvn : vs[n]? with
    | none =>
      rw [hvn] at hpos
      exact ih hpos
    | some w =>
      rw [hvn] at hpos
      simp only [] at hpos ⊢
      by_cases hw : w > v
      · rw [if_pos hw]
        exact ⟨w, by simpa using hvn, hw⟩
      · rw [if_neg hw] at hpos ⊢
        exact ih hpos

theorem stopIdxAux_above [LinearOrder V] (v : V) (vs : List V) :
    ∀ n : Nat, n ≤ vs.length → ∀ p : Nat, stopIdxAux v vs n ≤ p → p < n →
      ∃ w, vs[p]? = some w ∧ w ≤ v := by
  intro n
  induction n with
  | zero => intro _ p _ hp; omega
  | succ n ih =>
    intro hn p hsp hp
    have hvn : vs[n]? = some vs[n] := List.getElem?_eq_getElem (by omega)
    rw [stopIdxAux, hvn] at hsp
    simp only [] at hsp
    by_cases hw : vs[n] > v
    · rw [if_pos hw] at hsp
      omega
    · rw [if_neg hw] at hsp
      rcases Nat.lt_or_ge p n with hpn | hpn
      · exact ih (by omega) p hsp hpn
      · have hpn' : p = n := by omega
        subst hpn'
        exact ⟨vs[p], hvn, le_of_not_lt hw⟩

/-- Inserting `v` at an index whose left neighbour is strictly greater
and whose right neighbour is not greater keeps the list non-increasing. -/
theorem chain'_insertAt [LinearOrder V] (v : V) :
    ∀ (vs : List V) (t : Nat),
      List.Chain' (· ≥ ·) vs →
      (0 < t → ∃ w, vs[t - 1]? = some w ∧ v < w) →
      (∀ w, vs[t]? = some w → w ≤ v) →
      List.Chain' (· ≥ ·) (insertAt vs t v) := by
  intro vs
  induction vs with
  | nil =>
    intro t _ _ _
    rw [insertAt_nil]
    exact List.chain'_singleton v
  | cons w0 vs ih =>
    intro t hs h1 h2
    cases t with
    | zero =>
      rw [insertAt_zero, List.chain'_cons]
      refine ⟨h2 w0 (by simp), hs⟩
    | succ t =>
      rw [insertAt_cons_succ, List.chain'_cons']
      constructor
      · intro y hy
        cases t with
        | zero =>
          rw [insertAt_zero] at hy
          simp only [List.head?_cons, Option.mem_def, Option.some.injEq] at hy
          subst hy
          obtain ⟨w, hw, hvw⟩ := h1 (Nat.succ_pos 0)
          simp only [Nat.add_sub_cancel, List.getElem?_cons_zero,
            Option.some.injEq] at hw
          exact le_of_lt (hw ▸ hvw)
        | succ t' =>
          cases vs with
          | nil =>
            obtain ⟨w, hw, _⟩ := h1 (Nat.succ_pos _)
            simp at hw
          | cons w1 vs' =>
            rw [insertAt_cons_succ] at hy
            simp only [List.head?_cons, Option.mem_def, Option.some.injEq] at hy
            subst hy
            exact (List.chain'_cons.mp hs).1
      · refine ih t ((List.chain'_cons'.mp hs).2) ?_ ?_
        · intro ht
          obtain ⟨t', rfl⟩ : ∃ t', t = t' + 1 := ⟨t - 1, by omega⟩
          obtain ⟨w, hw, hvw⟩ := h1 (Nat.succ_pos _)
          refine ⟨w, ?_, hvw⟩
          simpa using hw
        · intro w hw
          exact h2 w (by simpa using hw)

/-- Adjacent entries of a `Chain'` list, through optional indexing. -/
theorem chain'_adj {R : α → α → Prop} :
    ∀ {l : List α} {i : Nat} {a b : α},
      List.Chain' R l → l[i]? = some a → l[i + 1]? = some b → R a b := by
  intro l
  induction l with
  | nil => intro i a b _ ha _; simp at ha
  | cons x l ih =>
    intro i a b hc ha hb
    cases i with
    | zero =>
      cases l with
      | nil => simp at hb
      | cons y l' =>
        simp only [List.getElem?_cons_zero, Option.some.injEq] at ha
        simp only [List.getElem?_cons_succ, List.getElem?_cons_zero,
          Option.some.injEq] at hb
        subst ha
        subst hb
        exact (List.chain'_cons.mp hc).1
    | succ i =>
      exact ih (List.chain'_cons'.mp hc).2 (by simpa using ha) (by simpa using hb)

end StopLemmas

/-! ## Characterization and invariants of `SortedMap.set` -/

section SortedSetLemmas

variable {K V : Type}

theorem SortedMap.sameLen_spliceOut [DecidableEq K] (m : SortedMap K V) (k : K)
    (h : m.sameLen) : (m.spliceOut k).1.length = (m.spliceOut k).2.length := by
  rw [SortedMap.spliceOut]
  cases hidx : idxOf? k m.keys with
  | none => exact h
  | some i =>
    have hik : i < m.keys.length := idxOf?_lt_length hidx
    have hiv : i < m.values.length := by rw [SortedMap.sameLen] at h; omega
    simp only [List.length_eraseIdx, if_pos hik, if_pos hiv]
    rw [SortedMap.sameLen] at h
    omega

/-- `SortedMap.set` on an equal-length container: splice out the key, then
insert the new entry into both arrays at the loop's stop index. -/
theorem SortedMap.set_eq [DecidableEq K] [LinearOrder V] (m : SortedMap K V)
    (k : K) (v : V) (h : m.sameLen) :
    m.set k v
      = ⟨insertAt (m.spliceOut k).1 (stopIdx v (m.spliceOut k).2) k,
         insertAt (m.spliceOut k).2 (stopIdx v (m.spliceOut k).2) v⟩ := by
  rw [SortedMap.set]
  rw [setLoop_run k v _ _ (m.sameLen_spliceOut k h)]

theorem SortedMap.sameLen_of_set [DecidableEq K] [LinearOrder V]
    (m : SortedMap K V) (k : K) (v : V) (h : m.sameLen) : (m.set k v).sameLen := by
  rw [SortedMap.set_eq m k v h, SortedMap.sameLen]
  simp only [length_insertAt]
  rw [m.sameLen_spliceOut k h]

theorem SortedMap.chain'_values_spliceOut [DecidableEq K] [LinearOrder V]
    (m : SortedMap K V) (k : K) (hs : List.Chain' (· ≥ ·) m.values) :
    List.Chain' (· ≥ ·) (m.spliceOut k).2 := by
  rw [SortedMap.spliceOut]
  cases hidx : idxOf? k m.keys with
  | none => exact hs
  | some i => exact hs.sublist (List.eraseIdx_sublist m.values i)

theorem SortedMap.chain'_values_set [DecidableEq K] [LinearOrder V]
    (m : SortedMap K V) (k : K) (v : V) (hlen : m.sameLen)
    (hs : List.Chain' (· ≥ ·) m.values) :
    List.Chain' (· ≥ ·) (m.set k v).values := by
  rw [SortedMap.set_eq m k v hlen]
  have hsp : List.Chain' (· ≥ ·) (m.spliceOut k).2 :=
    m.chain'_values_spliceOut k hs
  refine chain'_insertAt v _ _ hsp ?_ ?_
  · intro ht
    exact stopIdxAux_stop v (m.spliceOut k).2 _ ht
  · intro w hw
    have hlt : stopIdx v (m.spliceOut k).2 < (m.spliceOut k).2.length := by
      rcases List.getElem?_eq_some_iff.mp hw with ⟨hh, _⟩
      exact hh
    obtain ⟨w', hw', hle⟩ := stopIdxAux_above v (m.spliceOut k).2
      (m.spliceOut k).2.length le_rfl (stopIdx v (m.spliceOut k).2)
      le_rfl hlt
    rw [hw] at hw'
    cases hw'
    exact hle

end SortedSetLemmas

/-! ## Lemmas about `UnsortedMap.set`, `get`, `has` and `setAll` -/

section UnsortedLemmas

variable {K V : Type}

theorem UnsortedMap.set_absent [DecidableEq K] {m : UnsortedMap K V} {k : K}
    {v : V} (hidx : idxOf? k m.keys = none) :
    m.set k v = ⟨m.keys ++ [k], m.values ++ [v]⟩ := by
  rw [UnsortedMap.set, hidx]

theorem UnsortedMap.set_present [DecidableEq K] {m : UnsortedMap K V} {k : K}
    {v : V} {i : Nat} (hidx : idxOf? k m.keys = some i) :
    m.set k v = ⟨m.keys, m.values.set i v⟩ := by
  rw [UnsortedMap.set, hidx]
  simp only []
  rw [set_of_getElem? (idxOf?_getElem? hidx)]

theorem UnsortedMap.get_absent [DecidableEq K] {m : UnsortedMap K V} {k : K}
    (hidx : idxOf? k m.keys = none) : m.get k = none := by
  rw [UnsortedMap.get, hidx]

theorem UnsortedMap.get_present [DecidableEq K] {m : UnsortedMap K V} {k : K}
    {i : Nat} (hidx : idxOf? k m.keys = some i) : m.get k = m.values[i]? := by
  rw [UnsortedMap.get, hidx]

theorem UnsortedMap.get_set [DecidableEq K] (m : UnsortedMap K V) (k' k : K)
    (v : V) (h : m.sameLen) :
    (m.set k' v).get k = if k' = k then some v else m.get k := by
  rw [UnsortedMap.sameLen] at h
  cases hidx : idxOf? k' m.keys with
  | none =>
    have hmem : k' ∉ m.keys := idxOf?_eq_none_iff.mp hidx
    rw [UnsortedMap.set_absent hidx]
    by_cases hk : k' = k
    · subst hk
      rw [if_pos rfl, UnsortedMap.get]
      simp only []
      rw [idxOf?_append_self hmem]
      simp only []
      rw [h, List.getElem?_concat_length]
    · rw [if_neg hk, UnsortedMap.get, UnsortedMap.get]
      simp only []
      rw [idxOf?_append_ne hk]
      cases hidx2 : idxOf? k m.keys with
      | none => rfl
      | some j =>
        simp only []
        exact List.getElem?_append_left (by have := idxOf?_lt_length hidx2; omega)
  | some i =>
    have hiv : i < m.values.length := by have := idxOf?_lt_length hidx; omega
    rw [UnsortedMap.set_present hidx]
    by_cases hk : k' = k
    · subst hk
      rw [if_pos rfl, UnsortedMap.get]
      simp only []
      rw [hidx]
      simp only []
      rw [List.getElem?_set_self hiv]
    · rw [if_neg hk, UnsortedMap.get, UnsortedMap.get]
      simp only []
      cases hidx2 : idxOf? k m.keys with
      | none => rfl
      | some j =>
        simp only []
        have hji : i ≠ j := by
          intro he
          subst he
          have h1 := idxOf?_getElem? hidx
          have h2 := idxOf?_getElem? hidx2
          rw [h1] at h2
          exact hk (Option.some.injEq _ _ ▸ h2)
        exact List.getElem?_set_ne hji

theorem UnsortedMap.has_set [DecidableEq K] (m : UnsortedMap K V) (k' k : K)
    (v : V) :
    (m.set k' v).has k = (decide (k' = k) || m.has k) := by
  cases hidx : idxOf? k' m.keys with
  | none =>
    rw [UnsortedMap.set_absent hidx]
    by_cases hk : k' = k
    · subst hk
      rw [UnsortedMap.has]
      simp only []
      rw [idxOf?_append_self (idxOf?_eq_none_iff.mp hidx)]
      simp
    · rw [UnsortedMap.has, UnsortedMap.has]
      simp only []
      rw [idxOf?_append_ne hk]
      simp [hk]
  | some i =>
    rw [UnsortedMap.set_present hidx]
    rw [UnsortedMap.has, UnsortedMap.has]
    simp only []
    by_cases hk : k' = k
    · subst hk
      rw [hidx]
      simp
    · simp [hk]

theorem UnsortedMap.sameLen_set [DecidableEq K] (m : UnsortedMap K V) (k : K)
    (v : V) (h : m.sameLen) : (m.set k v).sameLen := by
  rw [UnsortedMap.sameLen] at h
  cases hidx : idxOf? k m.keys with
  | none =>
    rw [UnsortedMap.set_absent hidx, UnsortedMap.sameLen]
    simp only [List.length_append, List.length_cons, List.length_nil]
    omega
  | some i =>
    rw [UnsortedMap.set_present hidx, UnsortedMap.sameLen]
    simp only [List.length_set]
    exact h

theorem UnsortedMap.idxOf?_keys_set [DecidableEq K] (m : UnsortedMap K V)
    (k A : K) (v : V) {iA : Nat} (hA : idxOf? A m.keys = some iA) :
    idxOf? A (m.set k v).keys = some iA := by
  cases hidx : idxOf? k m.keys with
  | none =>
    rw [UnsortedMap.set_absent hidx]
    exact idxOf?_append_left hA
  | some i =>
    rw [UnsortedMap.set_present hidx]
    exact hA

theorem UnsortedMap.get_of_has_false [DecidableEq K] (m : UnsortedMap K V)
    (k : K) (h : m.has k = false) : m.get k = none := by
  rw [UnsortedMap.has] at h
  rw [UnsortedMap.get]
  cases hidx : idxOf? k m.keys with
  | none => rfl
  | some i => rw [hidx] at h; simp at h

theorem UnsortedMap.setAll_nil [DecidableEq K] (m : UnsortedMap K V) :
    m.setAll [] = m := rfl

theorem UnsortedMap.setAll_cons [DecidableEq K] (m : UnsortedMap K V)
    (k : K) (v : V) (ops : List (K × V)) :
    m.setAll ((k, v) :: ops) = (m.set k v).setAll ops := rfl

theorem UnsortedMap.sameLen_setAll [DecidableEq K] :
    ∀ (ops : List (K × V)) (m : UnsortedMap K V), m.sameLen →
      (m.setAll ops).sameLen := by
  intro ops
  induction ops with
  | nil => intro m h; exact h
  | cons p ops ih =>
    intro m h
    rw [UnsortedMap.setAll_cons]
    exact ih _ (m.sameLen_set p.1 p.2 h)

theorem UnsortedMap.get_setAll_none [DecidableEq K] {k : K} :
    ∀ (ops : List (K × V)) (m : UnsortedMap K V), m.sameLen →
      lastSet ops k = none → (m.setAll ops).get k = m.get k := by
  intro ops
  induction ops with
  | nil => intro m _ _; rfl
  | cons p ops ih =>
    intro m hm hl
    obtain ⟨k', v⟩ := p
    rw [lastSet] at hl
    cases hls : lastSet ops k with
    | some w => rw [hls] at hl; simp at hl
    | none =>
      rw [hls] at hl
      simp only [] at hl
      have hk : k' ≠ k := by
        intro he
        rw [if_pos he] at hl
        exact Option.noConfusion hl
      rw [UnsortedMap.setAll_cons, ih _ (m.sameLen_set k' v hm) hls,
        UnsortedMap.get_set m k' k v hm, if_neg hk]

theorem UnsortedMap.get_setAll_some [DecidableEq K] {k : K} {w : V} :
    ∀ (ops : List (K × V)) (m : UnsortedMap K V), m.sameLen →
      lastSet ops k = some w → (m.setAll ops).get k = some w := by
  intro ops
  induction ops with
  | nil => intro m _ hl; simp [lastSet] at hl
  | cons p ops ih =>
    intro m hm hl
    obtain ⟨k', v⟩ := p
    rw [lastSet] at hl
    rw [UnsortedMap.setAll_cons]
    cases hls : lastSet ops k with
    | some w' =>
      rw [hls] at hl
      simp only [Option.some.injEq] at hl
      subst hl
      exact ih _ (m.sameLen_set k' v hm) hls
    | none =>
      rw [hls] at hl
      simp only [] at hl
      by_cases hk : k' = k
      · rw [if_pos hk] at hl
        simp only [Option.some.injEq] at hl
        subst hl
        rw [UnsortedMap.get_setAll_none ops _ (m.sameLen_set k' v hm) hls,
          UnsortedMap.get_set m k' k v hm, if_pos hk]
      · rw [if_neg hk] at hl
        exact Option.noConfusion hl

theorem UnsortedMap.has_setAll_none [DecidableEq K] {k : K} :
    ∀ (ops : List (K × V)) (m : UnsortedMap K V),
      lastSet ops k = none → (m.setAll ops).has k = m.has k := by
  intro ops
  induction ops with
  | nil => intro m _; rfl
  | cons p ops ih =>
    intro m hl
    obtain ⟨k', v⟩ := p
    rw [lastSet] at hl
    cases hls : lastSet ops k with
    | some w => rw [hls] at hl; simp at hl
    | none =>
      rw [hls] at hl
      simp only [] at hl
      have hk : k' ≠ k := by
        intro he
        rw [if_pos he] at hl
        exact Option.noConfusion hl
      rw [UnsortedMap.setAll_cons, ih _ hls, UnsortedMap.has_set m k' k v]
      simp [hk]

theorem UnsortedMap.has_setAll_some [DecidableEq K] {k : K} :
    ∀ (ops : List (K × V)) (m : UnsortedMap K V) (w : V),
      lastSet ops k = some w → (m.setAll ops).has k = true := by
  intro ops
  induction ops with
  | nil => intro m w hl; simp [lastSet] at hl
  | cons p ops ih =>
    intro m w hl
    obtain ⟨k', v⟩ := p
    rw [lastSet] at hl
    rw [UnsortedMap.setAll_cons]
    cases hls : lastSet ops k with
    | some w' => exact ih _ w' hls
    | none =>
      rw [hls] at hl
      simp only [] at hl
      by_cases hk : k' = k
      · rw [UnsortedMap.has_setAll_none ops _ hls, UnsortedMap.has_set m k' k v]
        simp [hk]
      · rw [if_neg hk] at hl
        exact Option.noConfusion hl

end UnsortedLemmas

/-! ## Invariants of `SortedMap` under sequences of `set` calls -/

section SortedInvLemmas

variable {K V : Type}

theorem SortedMap.setAll_nil_def [DecidableEq K] [LinearOrder V] (m : SortedMap K V) :
    m.setAll [] = m := rfl

theorem SortedMap.setAll_cons_def [DecidableEq K] [LinearOrder V] (m : SortedMap K V)
    (k : K) (v : V) (ops : List (K × V)) :
    m.setAll ((k, v) :: ops) = (m.set k v).setAll ops := rfl

theorem SortedMap.inv_setAll [DecidableEq K] [LinearOrder V] :
    ∀ (ops : List (K × V)) (m : SortedMap K V), m.sameLen →
      List.Chain' (· ≥ ·) m.values →
      (m.setAll ops).sameLen ∧ List.Chain' (· ≥ ·) (m.setAll ops).values := by
  intro ops
  induction ops with
  | nil => intro m h hs; exact ⟨h, hs⟩
  | cons p ops ih =>
    intro m h hs
    obtain ⟨k, v⟩ := p
    rw [SortedMap.setAll_cons_def]
    exact ih _ (SortedMap.sameLen_of_set m k v h) (m.chain'_values_set k v h hs)

theorem not_mem_eraseIdx_of_nodup {α : Type} {l : List α} {i : Nat} {a : α}
    (hnd : l.Nodup) (ha : l[i]? = some a) : a ∉ l.eraseIdx i := by
  have hi : i < l.length := by
    rcases List.getElem?_eq_some_iff.mp ha with ⟨hh, _⟩
    exact hh
  have hval : l[i] = a := by
    rcases List.getElem?_eq_some_iff.mp ha with ⟨hh, he⟩
    exact he
  have hdecomp : l = l.take i ++ a :: l.drop (i + 1) := by
    conv_lhs => rw [(List.take_append_drop i l).symm]
    rw [List.drop_eq_getElem_cons hi, hval]
  rw [List.eraseIdx_eq_take_drop_succ]
  rw [hdecomp] at hnd
  rcases List.nodup_append.mp hnd with ⟨_, hnd2, hdisj⟩
  rcases List.nodup_cons.mp hnd2 with ⟨hnotin, _⟩
  intro hmem
  rcases List.mem_append.mp hmem with hmem1 | hmem2
  · exact hdisj hmem1 (List.mem_cons_self a _)
  · exact hnotin hmem2

theorem SortedMap.not_mem_spliceOut [DecidableEq K] (m : SortedMap K V) (k : K)
    (hnd : m.keys.Nodup) : k ∉ (m.spliceOut k).1 := by
  rw [SortedMap.spliceOut]
  cases hidx : idxOf? k m.keys with
  | none => exact idxOf?_eq_none_iff.mp hidx
  | some i => exact not_mem_eraseIdx_of_nodup hnd (idxOf?_getElem? hidx)

/-- After a `SortedMap.set`, splicing the same key back out recovers the
pre-insertion arrays (for a valid container with unique keys). -/
theorem SortedMap.spliceOut_set [DecidableEq K] [LinearOrder V]
    (m : SortedMap K V) (k : K) (v : V) (h : m.sameLen) (hnd : m.keys.Nodup) :
    (m.set k v).spliceOut k = m.spliceOut k := by
  have hlen := m.sameLen_spliceOut k h
  have hmem := m.not_mem_spliceOut k hnd
  have ht : stopIdx v (m.spliceOut k).2 ≤ (m.spliceOut k).2.length :=
    stopIdx_le v (m.spliceOut k).2
  have htk : stopIdx v (m.spliceOut k).2 ≤ (m.spliceOut k).1.length := by omega
  rw [SortedMap.set_eq m k v h]
  rw [SortedMap.spliceOut]
  simp only []
  rw [idxOf?_insertAt_self _ _ hmem htk]
  simp only []
  rw [eraseIdx_insertAt _ _ _ htk, eraseIdx_insertAt _ _ _ ht]

end SortedInvLemmas

/-! ## Remaining operation-level lemmas used by the claims -/

section OpLemmas

variable {K V : Type}

theorem UnsortedMap.sameLen_map [DecidableEq K] (m : UnsortedMap K V)
    (f : K → V → V) (h : m.sameLen) : (m.map f).sameLen := by
  rw [UnsortedMap.sameLen] at h ⊢
  simp only [UnsortedMap.map, UnsortedMap.ofArrays, List.length_append,
    List.length_nil, List.length_zipWith]
  omega

theorem SortedMap.sameLen_of_map [DecidableEq K] [LinearOrder V]
    (m : SortedMap K V) (f : K → V → V) : (m.map f).sameLen := rfl

end OpLemmas

/-! ## The claims -/

/-- C1: for every initial key/value sequence pair, constructing a
`SortedMap` (`DescendingSortedMap`) yields a container whose storage is
empty: both backing arrays are `[]` and `get k` is the absent indicator
(`none`) for every key `k`, including every key supplied at construction —
in particular `SortedMap(["a","b","c"], [5,1,3]).get("a")` is absent. -/
theorem claim_C1_construction_discards_data {K V : Type} [DecidableEq K]
    [LinearOrder V] (ks : List K) (vs : List V) :
    (SortedMap.ofArrays ks vs).keys = []
    ∧ (SortedMap.ofArrays ks vs).values = []
    ∧ (∀ k : K, (SortedMap.ofArrays ks vs).get k = none)
    ∧ (SortedMap.ofArrays ["a", "b", "c"] ([5, 1, 3] : List Int)).get "a" = none :=
  ⟨rfl, rfl, fun _ => rfl, rfl⟩

/-- C2: every `SortedMap` state reachable from the empty container by a
finite sequence of `set` calls has non-increasing values: for adjacent
indices `i`, `i+1`, `values[i] >= values[i+1]`. -/
theorem claim_C2_descending_invariant {K V : Type} [DecidableEq K]
    [LinearOrder V] (ops : List (K × V)) (i : Nat) (a b : V)
    (ha : ((SortedMap.empty.setAll ops).values)[i]? = some a)
    (hb : ((SortedMap.empty.setAll ops).values)[i + 1]? = some b) :
    b ≤ a := by
  have hinv := SortedMap.inv_setAll ops SortedMap.empty rfl List.chain'_nil
  have hab := chain'_adj hinv.2 ha hb
  exact hab

theorem claim_C2_descending_invariant_witness :
    ((SortedMap.empty : SortedMap Nat Int).setAll [(1, 5), (2, 9)]).values[0]?
      = some 9
    ∧ ((SortedMap.empty : SortedMap Nat Int).setAll [(1, 5), (2, 9)]).values[1]?
      = some 5
    ∧ (5 : Int) ≤ 9 :=
  ⟨by decide, by decide,
    claim_C2_descending_invariant [(1, 5), (2, 9)] 0 9 5 (by decide) (by decide)⟩

/-- C3, counterexample: the claim states that the tie scenario
`set("x",5).set("y",9).set("z",9)` on an empty `SortedMap` yields
keys `["y","z","x"]`; the code produces keys `["z","y","x"]`
(the new tied entry shifts left past the existing equal value), so the
claimed conjunction is false. -/
theorem claim_C3_tie_after_run_counterexample :
    ¬ (((((SortedMap.empty : SortedMap String Int).set "x" 5).set "y" 9).set
          "z" 9).values = [9, 9, 5]
        ∧ ((((SortedMap.empty : SortedMap String Int).set "x" 5).set "y" 9).set
          "z" 9).keys = ["y", "z", "x"]) := by
  decide

/-- C3, amended: a new entry whose value ties an existing stored value is
inserted *before* the run of equal values (the shift condition is the
strict `values[i-1] > setValue`, so equal values keep being shifted right
and the new entry stops to their left: the entry that ends up immediately
after the inserted one has value `≤` the new value); concretely,
`set("x",5).set("y",9).set("z",9)` from empty yields values `[9,9,5]`
with keys `["z","y","x"]`. -/
theorem claim_C3_tie_before_run_amended {K V : Type} [DecidableEq K]
    [LinearOrder V] (m : SortedMap K V) (k : K) (v : V) (h : m.sameLen) :
    (∀ w, (m.spliceOut k).2[stopIdx v (m.spliceOut k).2]? = some w → w ≤ v)
    ∧ (m.set k v).values
        = insertAt (m.spliceOut k).2 (stopIdx v (m.spliceOut k).2) v
    ∧ ((((SortedMap.empty : SortedMap String Int).set "x" 5).set "y" 9).set
        "z" 9).values = [9, 9, 5]
    ∧ ((((SortedMap.empty : SortedMap String Int).set "x" 5).set "y" 9).set
        "z" 9).keys = ["z", "y", "x"] := by
  refine ⟨?_, ?_, by decide, by decide⟩
  · intro w hw
    have hlt : stopIdx v (m.spliceOut k).2 < (m.spliceOut k).2.length := by
      rcases List.getElem?_eq_some_iff.mp hw with ⟨hh, _⟩
      exact hh
    obtain ⟨w', hw', hle⟩ := stopIdxAux_above v (m.spliceOut k).2
      (m.spliceOut k).2.length le_rfl (stopIdx v (m.spliceOut k).2) le_rfl hlt
    rw [hw] at hw'
    cases hw'
    exact hle
  · rw [SortedMap.set_eq m k v h]

theorem claim_C3_tie_before_run_amended_witness :
    ((SortedMap.empty : SortedMap String Int).sameLen)
    ∧ ((((SortedMap.empty : SortedMap String Int).set "x" 5).set "y" 9).set
        "z" 9).keys = ["z", "y", "x"] :=
  ⟨rfl, (claim_C3_tie_before_run_amended
    (SortedMap.empty : SortedMap String Int) "q" 0 rfl).2.2.2⟩

/-- C4, counterexample: the claim asserts that for every container of
either concrete type, `map` returns a container with the receiver's keys;
on a one-entry `SortedMap` receiver the returned container is empty, so
its keys differ from the receiver's. -/
theorem claim_C4_map_counterexample :
    ¬ ((((SortedMap.empty : SortedMap String Int).set "x" 5).map
          (fun _ w => w)).keys
        = ((SortedMap.empty : SortedMap String Int).set "x" 5).keys) := by
  decide

/-- C4, amended: `map` does not change the receiver (the embedding is
functional and the source builds fresh arrays); for an `UnsortedMap`
receiver the returned container has the receiver's keys in order and
`newValues[i] = f(keys[i], oldValues[i])` at every index; for a
`SortedMap` receiver the returned container of the same concrete type is
empty (its constructor discards the sequences passed by `map`), so the
keys/values correspondence only holds when the receiver is empty. -/
theorem claim_C4_map_amended {K1 V1 K2 V2 : Type} [DecidableEq K1]
    [DecidableEq K2] [LinearOrder V2] (m : UnsortedMap K1 V1)
    (f : K1 → V1 → V1) (s : SortedMap K2 V2) (g : K2 → V2 → V2) :
    (m.map f).keys = m.keys
    ∧ (∀ (i : Nat) (a : K1) (b : V1), m.keys[i]? = some a →
        m.values[i]? = some b → (m.map f).values[i]? = some (f a b))
    ∧ (s.map g).keys = [] ∧ (s.map g).values = [] := by
  refine ⟨?_, ?_, rfl, rfl⟩
  · rw [UnsortedMap.map, UnsortedMap.ofArrays, List.append_nil]
  · intro i a b ha hb
    rw [UnsortedMap.map, UnsortedMap.ofArrays]
    simp only []
    rw [List.getElem?_zipWith, ha, hb]

theorem claim_C4_map_amended_witness :
    (UnsortedMap.ofArrays ([1] : List Nat) ([2] : List Int)).keys[0]? = some 1
    ∧ (UnsortedMap.ofArrays ([1] : List Nat) ([2] : List Int)).values[0]? = some 2
    ∧ ((UnsortedMap.ofArrays ([1] : List Nat) ([2] : List Int)).map
        (fun _ w => w + 1)).values[0]? = some 3 :=
  ⟨by decide, by decide,
    (claim_C4_map_amended (UnsortedMap.ofArrays ([1] : List Nat) ([2] : List Int))
      (fun _ w => w + 1) (SortedMap.empty : SortedMap Nat Int)
      (fun _ w => w)).2.1 0 1 2 (by decide) (by decide)⟩

/-- C5: for an `UnsortedMap` (`OrderedMap`), after any sequence of `set`
calls on a well-formed container, `get k` returns the value of the most
recent `set(k, v)` in the sequence and `has k` is true; a key never set
(and not initially present) has `get k = none` and `has k = false`; in
particular `has` on the empty container is false for every key. -/
theorem claim_C5_get_returns_last_set {K V : Type} [DecidableEq K]
    (m : UnsortedMap K V) (ops : List (K × V)) (k : K) (h : m.sameLen) :
    (∀ w, lastSet ops k = some w →
        (m.setAll ops).get k = some w ∧ (m.setAll ops).has k = true)
    ∧ (lastSet ops k = none → m.has k = false →
        (m.setAll ops).get k = none ∧ (m.setAll ops).has k = false)
    ∧ (UnsortedMap.empty : UnsortedMap K V).has k = false := by
  refine ⟨?_, ?_, rfl⟩
  · intro w hw
    exact ⟨UnsortedMap.get_setAll_some ops m h hw,
      UnsortedMap.has_setAll_some ops m w hw⟩
  · intro hn hh
    constructor
    · rw [UnsortedMap.get_setAll_none ops m h hn]
      exact m.get_of_has_false k hh
    · rw [UnsortedMap.has_setAll_none ops m hn, hh]

theorem claim_C5_get_returns_last_set_witness :
    (UnsortedMap.empty : UnsortedMap Nat Int).sameLen
    ∧ lastSet [((1 : Nat), (5 : Int)), (2, 7), (1, 9)] 1 = some 9
    ∧ ((UnsortedMap.empty : UnsortedMap Nat Int).setAll
        [(1, 5), (2, 7), (1, 9)]).get 1 = some 9 :=
  ⟨rfl, by decide,
    ((claim_C5_get_returns_last_set (UnsortedMap.empty : UnsortedMap Nat Int)
      [(1, 5), (2, 7), (1, 9)] 1 rfl).1 9 (by decide)).1⟩

/-- C6: `UnsortedMap` (`OrderedMap`) preserves insertion order: any two
keys present in the container keep their relative index order across a
further `set` call (an update rewrites a key's entry in place without
moving it, an insert appends at the end); concretely
`OrderedMap().set("a",1).set("b",2).set("a",3)` yields keys `["a","b"]`
and values `[3,2]`. -/
theorem claim_C6_insertion_order {K V : Type} [DecidableEq K]
    (m : UnsortedMap K V) (k A B : K) (v : V) (iA iB : Nat)
    (hA : idxOf? A m.keys = some iA) (hB : idxOf? B m.keys = some iB)
    (hAB : iA < iB) :
    (idxOf? A (m.set k v).keys = some iA
      ∧ idxOf? B (m.set k v).keys = some iB ∧ iA < iB)
    ∧ ((((UnsortedMap.empty : UnsortedMap String Int).set "a" 1).set "b" 2).set
        "a" 3).keys = ["a", "b"]
    ∧ ((((UnsortedMap.empty : UnsortedMap String Int).set "a" 1).set "b" 2).set
        "a" 3).values = [3, 2] :=
  ⟨⟨m.idxOf?_keys_set k A v hA, m.idxOf?_keys_set k B v hB, hAB⟩,
    by decide, by decide⟩

theorem claim_C6_insertion_order_witness :
    idxOf? 10 [10, 20] = some 0
    ∧ idxOf? 20 [10, 20] = some 1
    ∧ (0 : Nat) < 1
    ∧ idxOf? 10 ((UnsortedMap.ofArrays [10, 20] ([1, 2] : List Int)).set
        30 3).keys = some 0 :=
  ⟨by decide, by decide, by decide,
    ((claim_C6_insertion_order (UnsortedMap.ofArrays [10, 20] ([1, 2] : List Int))
      30 10 20 3 0 1 (by decide) (by decide) (by decide)).1).1⟩

/-- C7: `upsert` equivalence — for either concrete container type,
`m.upsert(k, f)` produces exactly the state `m.set(k, f(m.get(k)))`
computed from the state before the call (with `f` receiving the absent
indicator when `k` is missing). -/
theorem claim_C7_upsert_equivalence {K1 V1 K2 V2 : Type} [DecidableEq K1]
    [DecidableEq K2] [LinearOrder V2] (m : UnsortedMap K1 V1) (k1 : K1)
    (f1 : Option V1 → V1) (s : SortedMap K2 V2) (k2 : K2)
    (f2 : Option V2 → V2) :
    m.upsert k1 f1 = m.set k1 (f1 (m.get k1))
    ∧ s.upsert k2 f2 = s.set k2 (f2 (s.get k2)) :=
  ⟨rfl, rfl⟩

/-- C8: `set` idempotence — for every well-formed container of either
concrete type (equal-length arrays; unique keys for the sorted variant),
calling `set(k, v)` twice in succession leaves the keys and values
sequences identical to calling it once. -/
theorem claim_C8_set_idempotent {K1 V1 K2 V2 : Type} [DecidableEq K1]
    [DecidableEq K2] [LinearOrder V2] (m : UnsortedMap K1 V1) (k1 : K1)
    (v1 : V1) (s : SortedMap K2 V2) (k2 : K2) (v2 : V2)
    (hm : m.sameLen) (hs : s.sameLen) (hnd : s.keys.Nodup) :
    (m.set k1 v1).set k1 v1 = m.set k1 v1
    ∧ (s.set k2 v2).set k2 v2 = s.set k2 v2 := by
  constructor
  · rw [UnsortedMap.sameLen] at hm
    cases hidx : idxOf? k1 m.keys with
    | some i =>
      rw [UnsortedMap.set_present hidx]
      have hidx2 : idxOf? k1
          (⟨m.keys, m.values.set i v1⟩ : UnsortedMap K1 V1).keys = some i := hidx
      rw [UnsortedMap.set_present hidx2]
      simp only [List.set_set]
    | none =>
      have hmem : k1 ∉ m.keys := idxOf?_eq_none_iff.mp hidx
      rw [UnsortedMap.set_absent hidx]
      have hidx2 : idxOf? k1
          (⟨m.keys ++ [k1], m.values ++ [v1]⟩ : UnsortedMap K1 V1).keys
            = some m.keys.length := idxOf?_append_self hmem
      rw [UnsortedMap.set_present hidx2]
      simp only []
      rw [set_of_getElem? (by rw [hm]; exact List.getElem?_concat_length _ _)]
  · have hm1 : (s.set k2 v2).sameLen := SortedMap.sameLen_of_set s k2 v2 hs
    rw [SortedMap.set_eq (s.set k2 v2) k2 v2 hm1,
      SortedMap.spliceOut_set s k2 v2 hs hnd, ← SortedMap.set_eq s k2 v2 hs]

theorem claim_C8_set_idempotent_witness :
    (UnsortedMap.ofArrays ([1] : List Nat) ([2] : List Int)).sameLen
    ∧ (SortedMap.empty : SortedMap Nat Int).sameLen
    ∧ (SortedMap.empty : SortedMap Nat Int).keys.Nodup
    ∧ ((UnsortedMap.ofArrays ([1] : List Nat) ([2] : List Int)).set 1 9).set 1 9
        = (UnsortedMap.ofArrays ([1] : List Nat) ([2] : List Int)).set 1 9
    ∧ ((SortedMap.empty : SortedMap Nat Int).set 3 7).set 3 7
        = (SortedMap.empty : SortedMap Nat Int).set 3 7 :=
  ⟨rfl, rfl, List.nodup_nil,
    (claim_C8_set_idempotent (UnsortedMap.ofArrays ([1] : List Nat) ([2] : List Int)) 1 9
      (SortedMap.empty : SortedMap Nat Int) 3 7 rfl rfl List.nodup_nil).1,
    (claim_C8_set_idempotent (UnsortedMap.ofArrays ([1] : List Nat) ([2] : List Int)) 1 9
      (SortedMap.empty : SortedMap Nat Int) 3 7 rfl rfl List.nodup_nil).2⟩

/-- C9: the equal-length invariant — containers created empty or from
matching-length initial sequences have equal-length keys/values arrays,
and every operation (`set`, `upsert`, `map`, on either concrete type)
preserves that property. -/
theorem claim_C9_equal_length_invariant {K1 V1 K2 V2 : Type} [DecidableEq K1]
    [DecidableEq K2] [LinearOrder V2]
    (ks1 : List K1) (vs1 : List V1) (ks2 : List K2) (vs2 : List V2)
    (m : UnsortedMap K1 V1) (s : SortedMap K2 V2)
    (k1 : K1) (v1 : V1) (f1 : K1 → V1 → V1) (g1 : Option V1 → V1)
    (k2 : K2) (v2 : V2) (f2 : K2 → V2 → V2) (g2 : Option V2 → V2)
    (hinit : ks1.length = vs1.length) (hm : m.sameLen) (hs : s.sameLen) :
    (UnsortedMap.empty : UnsortedMap K1 V1).sameLen
    ∧ (UnsortedMap.ofArrays ks1 vs1).sameLen
    ∧ (SortedMap.empty : SortedMap K2 V2).sameLen
    ∧ (SortedMap.ofArrays ks2 vs2).sameLen
    ∧ (m.set k1 v1).sameLen
    ∧ (m.upsert k1 g1).sameLen
    ∧ (m.map f1).sameLen
    ∧ (s.set k2 v2).sameLen
    ∧ (s.upsert k2 g2).sameLen
    ∧ (s.map f2).sameLen :=
  ⟨rfl, hinit, rfl, rfl,
    m.sameLen_set k1 v1 hm,
    m.sameLen_set k1 (g1 (m.get k1)) hm,
    m.sameLen_map f1 hm,
    SortedMap.sameLen_of_set s k2 v2 hs,
    SortedMap.sameLen_of_set s k2 (g2 (s.get k2)) hs,
    SortedMap.sameLen_of_map s f2⟩

theorem claim_C9_equal_length_invariant_witness :
    ([1] : List Nat).length = ([2] : List Int).length
    ∧ (UnsortedMap.ofArrays ([1] : List Nat) ([2] : List Int)).sameLen
    ∧ ((UnsortedMap.ofArrays ([1] : List Nat) ([2] : List Int)).set 1 9).sameLen :=
  ⟨rfl,
    (claim_C9_equal_length_invariant ([1] : List Nat) ([2] : List Int) ([3] : List Nat) ([4] : List Int)
      (UnsortedMap.ofArrays ([1] : List Nat) ([2] : List Int))
      (SortedMap.empty : SortedMap Nat Int) 1 9 (fun _ w => w) (fun _ => 0)
      3 7 (fun _ w => w) (fun _ => 0) rfl rfl rfl).2.1,
    (claim_C9_equal_length_invariant ([1] : List Nat) ([2] : List Int) ([3] : List Nat) ([4] : List Int)
      (UnsortedMap.ofArrays ([1] : List Nat) ([2] : List Int))
      (SortedMap.empty : SortedMap Nat Int) 1 9 (fun _ w => w) (fun _ => 0)
      3 7 (fun _ w => w) (fun _ => 0) rfl rfl rfl).2.2.2.2.1⟩

/-- C10: for every `SortedMap` and every transform, `map` returns an empty
`SortedMap`: the inherited `map` body passes the copied keys and the
transformed values to the runtime concrete constructor, and the
`SortedMap` constructor initializes the base storage with no arguments,
discarding those sequences. -/
theorem claim_C10_map_on_sorted_returns_empty {K V : Type} [DecidableEq K]
    [LinearOrder V] (m : SortedMap K V) (f : K → V → V) :
    (m.map f).keys = [] ∧ (m.map f).values = []
    ∧ ∀ k : K, (m.map f).get k = none :=
  ⟨rfl, rfl, fun _ => rfl⟩

end JsMaps
